import Mathlib

/-!
Shallow embedding of `pkg/compass/compass.go` from keybrl/hksr-compass.

The Go package models a three-ring navigation compass:
* `Ring` holds an angular `Location` and a rotation `Speed`, both Go `int`s
  (embedded as `Int`; Go's `%` on `int` is truncating remainder, i.e. `Int.tmod`).
* `RingGroup` is a `uint8` bitmask over the three rings
  (embedded as `Nat`; the code only compares ring groups with `==` and `<`,
  so the embedding is faithful on every `uint8` value).
* `Compass` aggregates the three rings and a slice of ring groups.

Methods with a pointer receiver that check `compass == nil` are embedded as
functions on `Option Compass` (`none` is the nil receiver).
-/

namespace HksrCompass

/-- Go struct `Ring`: `Location` and `Speed` are Go `int`s. -/
structure Ring where
  Location : Int
  Speed : Int
deriving DecidableEq

/-- Go type `RingGroup uint8`: a 3-bit mask, one bit per ring. -/
abbrev RingGroup := Nat

/-- `OuterRingGroup RingGroup = 0b100` -/
def OuterRingGroup : RingGroup := 0b100

/-- `MiddleRingGroup RingGroup = 0b010` -/
def MiddleRingGroup : RingGroup := 0b010

/-- `InnerRingGroup RingGroup = 0b001` -/
def InnerRingGroup : RingGroup := 0b001

/-- `OuterMiddleRingGroup = OuterRingGroup | MiddleRingGroup` -/
def OuterMiddleRingGroup : RingGroup := OuterRingGroup ||| MiddleRingGroup

/-- `OuterInnerRingGroup = OuterRingGroup | InnerRingGroup` -/
def OuterInnerRingGroup : RingGroup := OuterRingGroup ||| InnerRingGroup

/-- `MiddleInnerRingGroup = MiddleRingGroup | InnerRingGroup` -/
def MiddleInnerRingGroup : RingGroup := MiddleRingGroup ||| InnerRingGroup

/-- Go method `RingGroup.Name`: the `switch rg` over the six named constants,
returning `""` on fallthrough. -/
def RingGroup.Name (rg : RingGroup) : String :=
  if rg = OuterRingGroup then "Outer"
  else if rg = MiddleRingGroup then "Middle"
  else if rg = InnerRingGroup then "Inner"
  else if rg = OuterMiddleRingGroup then "OuterMiddle"
  else if rg = OuterInnerRingGroup then "OuterInner"
  else if rg = MiddleInnerRingGroup then "MiddleInner"
  else ""

/-- Go method `RingGroup.ShortName`: the `switch rg` over the six named constants,
returning `""` on fallthrough. -/
def RingGroup.ShortName (rg : RingGroup) : String :=
  if rg = OuterRingGroup then "o"
  else if rg = MiddleRingGroup then "m"
  else if rg = InnerRingGroup then "i"
  else if rg = OuterMiddleRingGroup then "om"
  else if rg = OuterInnerRingGroup then "oi"
  else if rg = MiddleInnerRingGroup then "mi"
  else ""

/-- Go struct `Compass`: three rings and the `RingGroups` slice. -/
structure Compass where
  InnerRing : Ring
  MiddleRing : Ring
  OuterRing : Ring
  RingGroups : List RingGroup
deriving DecidableEq

/-- The `for _, supportedRG := range compass.RingGroups` loop of
`IsRingGroupSupported`: linear scan comparing with `==`. -/
def containsRG : List RingGroup → RingGroup → Bool
  | [], _ => false
  | s :: rest, rg => if s = rg then true else containsRG rest rg

/-- Go method `Compass.IsRingGroupSupported` on a possibly-nil receiver:
nil returns `false`, otherwise the membership scan over `RingGroups`. -/
def Compass.IsRingGroupSupported : Option Compass → RingGroup → Bool
  | none, _ => false
  | some c, rg => containsRG c.RingGroups rg

/-- The `sort.Slice(rgs, func(i, j int) bool { return rgs[i] < rgs[j] })` call:
sorts the slice ascending by the bitmask's numeric value. -/
def sortRGs (l : List RingGroup) : List RingGroup :=
  List.insertionSort (· ≤ ·) l

/-- The dedup loop of `Standardize`: walking the sorted slice, an element equal
to the last one appended to `deduplicatedRGs` is skipped. The first argument is
the last appended element (`none` while `deduplicatedRGs` is empty). -/
def dedupGo : Option RingGroup → List RingGroup → List RingGroup
  | _, [] => []
  | none, rg :: rest => rg :: dedupGo (some rg) rest
  | some last, rg :: rest =>
      if last = rg then dedupGo (some last) rest
      else rg :: dedupGo (some rg) rest

/-- The whole dedup loop, starting from an empty `deduplicatedRGs`. -/
def dedupRGs (l : List RingGroup) : List RingGroup := dedupGo none l

/-- The non-nil body of Go method `Compass.Standardize`: each location becomes
`(loc%6 + 6) % 6`, each speed becomes `speed % 6` (Go `%` = `Int.tmod`), and
`RingGroups` is sorted and deduplicated. -/
def standardizeCompass (c : Compass) : Compass :=
  { InnerRing := { Location := (c.InnerRing.Location.tmod 6 + 6).tmod 6
                   Speed := c.InnerRing.Speed.tmod 6 }
    MiddleRing := { Location := (c.MiddleRing.Location.tmod 6 + 6).tmod 6
                    Speed := c.MiddleRing.Speed.tmod 6 }
    OuterRing := { Location := (c.OuterRing.Location.tmod 6 + 6).tmod 6
                   Speed := c.OuterRing.Speed.tmod 6 }
    RingGroups := dedupRGs (sortRGs c.RingGroups) }

/-- Go method `Compass.Standardize` on a possibly-nil receiver. -/
def Compass.Standardize : Option Compass → Option Compass
  | none => none
  | some c => some (standardizeCompass c)

/-- Go's `fmt.Sprintf` verb `%+d`: decimal with a mandatory leading sign. -/
def fmtPlusInt (n : Int) : String :=
  if 0 ≤ n then "+" ++ toString n else toString n

/-- Go method `Compass.String` on a possibly-nil receiver: nil gives `""`,
otherwise the receiver is standardized and printed as
`"%d%+d,%d%+d,%d%+d/%s"` over outer, middle, inner, and the comma-joined
short names of the standardized ring groups. -/
def CompassString : Option Compass → String
  | none => ""
  | some c =>
      let std := standardizeCompass c
      toString std.OuterRing.Location ++ fmtPlusInt std.OuterRing.Speed ++ ","
        ++ toString std.MiddleRing.Location ++ fmtPlusInt std.MiddleRing.Speed ++ ","
        ++ toString std.InnerRing.Location ++ fmtPlusInt std.InnerRing.Speed
        ++ "/" ++ String.intercalate "," (std.RingGroups.map RingGroup.ShortName)

/-! ### Arithmetic facts about Go's truncating remainder (`Int.tmod`) -/

/-- Truncating remainder by 6 in terms of the Euclidean remainder. -/
theorem tmod_six_eq : ∀ a : Int, a.tmod 6 = if 0 ≤ a then a % 6 else -(-a % 6)
  | Int.ofNat m => by
      rw [if_pos (show (0 : Int) ≤ Int.ofNat m from Int.ofNat_nonneg m)]; rfl
  | Int.negSucc m => by
      rw [if_neg (show ¬(0 : Int) ≤ Int.negSucc m from (Int.negSucc_lt_zero m).not_le)]; rfl

/-- The location normalization `(a%6 + 6) % 6` (Go `%`) equals the Euclidean
remainder `a.emod 6`. -/
theorem locStd_eq_emod (a : Int) : (a.tmod 6 + 6).tmod 6 = a % 6 := by
  rw [tmod_six_eq (a.tmod 6 + 6), tmod_six_eq a]
  split_ifs <;> omega

/-- The speed normalization `a % 6` (Go `%`) is idempotent. -/
theorem tmod_six_idem (a : Int) : (a.tmod 6).tmod 6 = a.tmod 6 := by
  rw [tmod_six_eq (a.tmod 6), tmod_six_eq a]
  split_ifs <;> omega

/-- The standardized location is in `[0, 6)`. -/
theorem locStd_range (a : Int) :
    0 ≤ (a.tmod 6 + 6).tmod 6 ∧ (a.tmod 6 + 6).tmod 6 < 6 := by
  rw [locStd_eq_emod]
  omega

/-- A non-zero truncating remainder by 6 is positive or negative together
with its argument. -/
theorem tmod_six_sign (a : Int) (h : a.tmod 6 ≠ 0) :
    (0 < a.tmod 6 ↔ 0 < a) ∧ (a.tmod 6 < 0 ↔ a < 0) := by
  rw [tmod_six_eq a] at h ⊢
  split_ifs at h ⊢ <;> omega

/-! ### Facts about the sort-and-dedup pass on `RingGroups` -/

/-- An element emitted by the dedup loop comes from the input or is the
last-appended element. -/
theorem mem_of_mem_dedupGo {x : RingGroup} :
    ∀ (last : Option RingGroup) (l : List RingGroup),
      x ∈ dedupGo last l → x ∈ l ∨ last = some x
  | _, [], h => by simp [dedupGo] at h
  | none, rg :: rest, h => by
      simp only [dedupGo, List.mem_cons] at h
      rcases h with h | h
      · exact Or.inl (by simp [h])
      · rcases mem_of_mem_dedupGo (some rg) rest h with h2 | h2
        · exact Or.inl (List.mem_cons_of_mem rg h2)
        · exact Or.inl (by simp at h2; simp [h2])
  | some last, rg :: rest, h => by
      simp only [dedupGo] at h
      by_cases hl : last = rg
      · rw [if_pos hl] at h
        rcases mem_of_mem_dedupGo (some last) rest h with h2 | h2
        · exact Or.inl (List.mem_cons_of_mem rg h2)
        · exact Or.inr h2
      · rw [if_neg hl] at h
        rcases List.mem_cons.mp h with h2 | h2
        · exact Or.inl (h2 ▸ List.mem_cons_self rg rest)
        · rcases mem_of_mem_dedupGo (some rg) rest h2 with h3 | h3
          · exact Or.inl (List.mem_cons_of_mem rg h3)
          · exact Or.inl (by simp at h3; simp [h3])

/-- An input element survives the dedup loop unless it equals the
last-appended element. -/
theorem mem_dedupGo_of_mem {x : RingGroup} :
    ∀ (last : Option RingGroup) (l : List RingGroup),
      x ∈ l → x ∈ dedupGo last l ∨ last = some x
  | _, [], h => by simp at h
  | none, rg :: rest, h => by
      simp only [dedupGo, List.mem_cons]
      rcases List.mem_cons.mp h with h1 | h1
      · exact Or.inl (Or.inl h1)
      · rcases mem_dedupGo_of_mem (some rg) rest h1 with h2 | h2
        · exact Or.inl (Or.inr h2)
        · exact Or.inl (Or.inl (by simp at h2; simp [h2]))
  | some last, rg :: rest, h => by
      simp only [dedupGo]
      by_cases hl : last = rg
      · rw [if_pos hl]
        rcases List.mem_cons.mp h with h1 | h1
        · exact Or.inr (by rw [hl, h1])
        · exact mem_dedupGo_of_mem (some last) rest h1
      · rw [if_neg hl]
        rcases List.mem_cons.mp h with h1 | h1
        · exact Or.inl (List.mem_cons.mpr (Or.inl h1))
        · rcases mem_dedupGo_of_mem (some rg) rest h1 with h2 | h2
          · exact Or.inl (List.mem_cons_of_mem rg h2)
          · exact Or.inl (List.mem_cons.mpr (Or.inl (by simp at h2; simp [h2])))

/-- The dedup pass preserves membership exactly. -/
theorem mem_dedupRGs {x : RingGroup} {l : List RingGroup} :
    x ∈ dedupRGs l ↔ x ∈ l := by
  constructor
  · intro h
    rcases mem_of_mem_dedupGo none l h with h1 | h1
    · exact h1
    · exact absurd h1 (by simp)
  · intro h
    rcases mem_dedupGo_of_mem none l h with h1 | h1
    · exact h1
    · exact absurd h1 (by simp)

/-- On a `≤`-chained suffix, the dedup loop started after `a` produces a
strictly increasing list extending `a`. -/
theorem chain_dedupGo (a : RingGroup) :
    ∀ l : List RingGroup, List.Chain (· ≤ ·) a l →
      List.Chain' (· < ·) (a :: dedupGo (some a) l)
  | [], _ => List.chain'_singleton a
  | rg :: rest, h => by
      rcases List.chain_cons.mp h with ⟨hle, hrest⟩
      simp only [dedupGo]
      by_cases hl : a = rg
      · rw [if_pos hl]
        exact chain_dedupGo a rest (hl ▸ hrest)
      · rw [if_neg hl]
        have hlt : a < rg := lt_of_le_of_ne hle hl
        exact List.chain'_cons.mpr ⟨hlt, chain_dedupGo rg rest hrest⟩

/-- Dedup of a `≤`-sorted list is strictly increasing. -/
theorem chain_dedupRGs : ∀ {l : List RingGroup},
    List.Sorted (· ≤ ·) l → List.Chain' (· < ·) (dedupRGs l)
  | [], _ => List.chain'_nil
  | rg :: rest, h => by
      have hchain : List.Chain (· ≤ ·) rg rest := List.chain_iff_pairwise.mpr h
      exact chain_dedupGo rg rest hchain

/-- The dedup loop does not change a strictly increasing suffix. -/
theorem dedupGo_eq_self (a : RingGroup) :
    ∀ l : List RingGroup, List.Chain (· < ·) a l → dedupGo (some a) l = l
  | [], _ => rfl
  | rg :: rest, h => by
      rcases List.chain_cons.mp h with ⟨hlt, hrest⟩
      simp only [dedupGo]
      rw [if_neg (ne_of_lt hlt)]
      rw [dedupGo_eq_self rg rest hrest]

/-- Dedup is the identity on strictly increasing lists. -/
theorem dedupRGs_eq_self : ∀ {l : List RingGroup},
    List.Chain' (· < ·) l → dedupRGs l = l
  | [], _ => rfl
  | rg :: rest, h => by
      simp only [dedupRGs, dedupGo]
      exact congrArg (rg :: ·) (dedupGo_eq_self rg rest h)

/-- The sort pass produces a `≤`-sorted list. -/
theorem sorted_sortRGs (l : List RingGroup) : List.Sorted (· ≤ ·) (sortRGs l) :=
  List.sorted_insertionSort _ l

/-- The sort pass preserves membership. -/
theorem mem_sortRGs {x : RingGroup} {l : List RingGroup} : x ∈ sortRGs l ↔ x ∈ l :=
  List.mem_insertionSort _

/-- The standardized `RingGroups` list is strictly increasing. -/
theorem chain_standardRGs (l : List RingGroup) :
    List.Chain' (· < ·) (dedupRGs (sortRGs l)) :=
  chain_dedupRGs (sorted_sortRGs l)

/-- A strictly increasing list is `≤`-sorted. -/
theorem sorted_le_of_chain_lt {l : List RingGroup} (h : List.Chain' (· < ·) l) :
    List.Sorted (· ≤ ·) l :=
  (List.chain'_iff_pairwise.mp h).imp le_of_lt

/-- Sorting then deduplicating is idempotent. -/
theorem dedupSort_idem (l : List RingGroup) :
    dedupRGs (sortRGs (dedupRGs (sortRGs l))) = dedupRGs (sortRGs l) := by
  have h := chain_standardRGs l
  have hs : sortRGs (dedupRGs (sortRGs l)) = dedupRGs (sortRGs l) := by
    simp only [sortRGs]
    exact List.Sorted.insertionSort_eq (sorted_le_of_chain_lt h)
  rw [hs, dedupRGs_eq_self h]

/-- The membership scan decides list membership. -/
theorem containsRG_eq_decide : ∀ (l : List RingGroup) (rg : RingGroup),
    containsRG l rg = decide (rg ∈ l)
  | [], rg => by simp [containsRG]
  | s :: rest, rg => by
      simp only [containsRG]
      by_cases h : s = rg
      · simp [h]
      · rw [if_neg h, containsRG_eq_decide rest rg]
        have hiff : rg ∈ rest ↔ rg ∈ s :: rest := by
          rw [List.mem_cons]
          exact (or_iff_right fun hh => h hh.symm).symm
        exact decide_eq_decide.mpr hiff

/-! ### A slice-heap model for the frame property of `Standardize`

`sort.Slice` sorts its slice in place, so whether `Standardize` mutates the
receiver depends on whether `rgs` aliases `compass.RingGroups`. To observe
this, slices of `RingGroup` are modelled as references into a heap of backing
arrays, and the body of `Standardize` is translated statement by statement. -/

/-- A heap of `RingGroup` slice backing arrays: `next` is the next fresh
reference. -/
structure RGHeap where
  data : Nat → List RingGroup
  next : Nat

/-- Allocate a fresh backing array holding `v`. -/
def RGHeap.alloc (h : RGHeap) (v : List RingGroup) : Nat × RGHeap :=
  (h.next, ⟨fun i => if i = h.next then v else h.data i, h.next + 1⟩)

/-- Overwrite the backing array behind reference `r` with `v`. -/
def RGHeap.write (h : RGHeap) (r : Nat) (v : List RingGroup) : RGHeap :=
  ⟨fun i => if i = r then v else h.data i, h.next⟩

/-- A `Compass` whose `RingGroups` field is a slice reference into an
`RGHeap`, as in Go. -/
structure CompassRef where
  InnerRing : Ring
  MiddleRing : Ring
  OuterRing : Ring
  RingGroupsRef : Nat

/-- Statement-by-statement translation of the non-nil body of
`Compass.Standardize` on the slice-heap model:
`rgs := make([]RingGroup, len(compass.RingGroups))` allocates a fresh backing
array, `copy(rgs, compass.RingGroups)` writes the receiver's elements into it,
`sort.Slice(rgs, ...)` sorts the `rgs` backing array in place, the dedup loop
appends into a fresh slice, and the returned compass references that fresh
slice. -/
def standardizeHeap (h : RGHeap) (c : CompassRef) : CompassRef × RGHeap :=
  let alloc1 := h.alloc (List.replicate (h.data c.RingGroupsRef).length 0)
  let rgsRef := alloc1.1
  let h1 := alloc1.2
  let h2 := h1.write rgsRef (h1.data c.RingGroupsRef)
  let h3 := h2.write rgsRef (sortRGs (h2.data rgsRef))
  let alloc2 := h3.alloc (dedupRGs (h3.data rgsRef))
  (⟨⟨(c.InnerRing.Location.tmod 6 + 6).tmod 6, c.InnerRing.Speed.tmod 6⟩,
    ⟨(c.MiddleRing.Location.tmod 6 + 6).tmod 6, c.MiddleRing.Speed.tmod 6⟩,
    ⟨(c.OuterRing.Location.tmod 6 + 6).tmod 6, c.OuterRing.Speed.tmod 6⟩,
    alloc2.1⟩, alloc2.2)

/-! ### The claims -/

/-- C1: for every non-nil compass, `String()` returns exactly
`"<outerLoc><outerSpeed>,<middleLoc><middleSpeed>,<innerLoc><innerSpeed>/<groupCodes>"`
computed from the standardized value: each ring contributes its location with
no sign immediately followed by its speed with a mandatory leading sign
(`+` for non-negative, so zero speed renders as `+0`), the rings appear in
order outer, middle, inner separated by commas, then `/` and the comma-joined
short-name codes of the standardized groups; in particular the compass with
outer `{0, -1}`, middle `{3, 2}`, inner `{5, 0}`,
ringGroups `[OuterMiddleRingGroup]` serializes to `"0-1,3+2,5+0/om"`. -/
theorem C1_string_format :
    (∀ c : Compass,
      CompassString (some c) =
        toString (standardizeCompass c).OuterRing.Location
          ++ (if 0 ≤ (standardizeCompass c).OuterRing.Speed
              then "+" ++ toString (standardizeCompass c).OuterRing.Speed
              else toString (standardizeCompass c).OuterRing.Speed)
          ++ ","
          ++ toString (standardizeCompass c).MiddleRing.Location
          ++ (if 0 ≤ (standardizeCompass c).MiddleRing.Speed
              then "+" ++ toString (standardizeCompass c).MiddleRing.Speed
              else toString (standardizeCompass c).MiddleRing.Speed)
          ++ ","
          ++ toString (standardizeCompass c).InnerRing.Location
          ++ (if 0 ≤ (standardizeCompass c).InnerRing.Speed
              then "+" ++ toString (standardizeCompass c).InnerRing.Speed
              else toString (standardizeCompass c).InnerRing.Speed)
          ++ "/"
          ++ String.intercalate ","
              ((standardizeCompass c).RingGroups.map RingGroup.ShortName))
    ∧ CompassString (some ⟨⟨5, 0⟩, ⟨3, 2⟩, ⟨0, -1⟩, [OuterMiddleRingGroup]⟩)
        = "0-1,3+2,5+0/om" :=
  ⟨fun _ => rfl, by decide⟩

/-- C2: `Standardize` is idempotent: standardizing twice equals standardizing
once, field by field (all three rings and the `RingGroups` list). -/
theorem C2_standardize_idempotent (oc : Option Compass) :
    Compass.Standardize (Compass.Standardize oc) = Compass.Standardize oc := by
  cases oc with
  | none => rfl
  | some c =>
    obtain ⟨⟨li, si⟩, ⟨lm, sm⟩, ⟨lo, so⟩, rgs⟩ := c
    have hloc : ∀ a : Int,
        (((a.tmod 6 + 6).tmod 6).tmod 6 + 6).tmod 6 = (a.tmod 6 + 6).tmod 6 := by
      intro a
      rw [locStd_eq_emod, locStd_eq_emod]
      omega
    show some (standardizeCompass (standardizeCompass ⟨⟨li, si⟩, ⟨lm, sm⟩, ⟨lo, so⟩, rgs⟩))
      = some (standardizeCompass ⟨⟨li, si⟩, ⟨lm, sm⟩, ⟨lo, so⟩, rgs⟩)
    simp only [standardizeCompass, Option.some.injEq, Compass.mk.injEq, Ring.mk.injEq]
    exact ⟨⟨hloc li, tmod_six_idem si⟩, ⟨hloc lm, tmod_six_idem sm⟩,
      ⟨hloc lo, tmod_six_idem so⟩, dedupSort_idem rgs⟩

/-- C2 witness at a concrete compass: the idempotence theorem evaluated on a
non-canonical input. -/
theorem C2_standardize_idempotent_example :
    Compass.Standardize (Compass.Standardize
        (some ⟨⟨-1, -7⟩, ⟨7, 8⟩, ⟨13, -13⟩, [InnerRingGroup, InnerRingGroup]⟩))
      = Compass.Standardize
        (some ⟨⟨-1, -7⟩, ⟨7, 8⟩, ⟨13, -13⟩, [InnerRingGroup, InnerRingGroup]⟩) :=
  C2_standardize_idempotent
    (some ⟨⟨-1, -7⟩, ⟨7, 8⟩, ⟨13, -13⟩, [InnerRingGroup, InnerRingGroup]⟩)

/-- C3: every standardized ring location equals `((loc % 6) + 6) % 6` under
Go's truncating `%` and lies in `[0, 6)`; in particular location `-1`
standardizes to `5` and location `7` standardizes to `1`. -/
theorem C3_location_standardized :
    (∀ c : Compass,
      ((standardizeCompass c).InnerRing.Location
          = (c.InnerRing.Location.tmod 6 + 6).tmod 6
        ∧ 0 ≤ (standardizeCompass c).InnerRing.Location
        ∧ (standardizeCompass c).InnerRing.Location < 6)
      ∧ ((standardizeCompass c).MiddleRing.Location
          = (c.MiddleRing.Location.tmod 6 + 6).tmod 6
        ∧ 0 ≤ (standardizeCompass c).MiddleRing.Location
        ∧ (standardizeCompass c).MiddleRing.Location < 6)
      ∧ ((standardizeCompass c).OuterRing.Location
          = (c.OuterRing.Location.tmod 6 + 6).tmod 6
        ∧ 0 ≤ (standardizeCompass c).OuterRing.Location
        ∧ (standardizeCompass c).OuterRing.Location < 6))
    ∧ (standardizeCompass ⟨⟨-1, 0⟩, ⟨7, 0⟩, ⟨0, 0⟩, []⟩).InnerRing.Location = 5
    ∧ (standardizeCompass ⟨⟨-1, 0⟩, ⟨7, 0⟩, ⟨0, 0⟩, []⟩).MiddleRing.Location = 1 :=
  ⟨fun c =>
    ⟨⟨rfl, (locStd_range c.InnerRing.Location).1, (locStd_range c.InnerRing.Location).2⟩,
     ⟨rfl, (locStd_range c.MiddleRing.Location).1, (locStd_range c.MiddleRing.Location).2⟩,
     ⟨rfl, (locStd_range c.OuterRing.Location).1, (locStd_range c.OuterRing.Location).2⟩⟩,
   by decide, by decide⟩

/-- C4: every standardized ring speed equals the truncating remainder of the
input speed by 6, and a non-zero standardized speed is positive (resp.
negative) exactly when the input speed is; in particular speed `-1`
standardizes to `-1`, speed `7` to `1`, and speed `-7` to `-1`. -/
theorem C4_speed_standardized :
    (∀ c : Compass,
      (standardizeCompass c).InnerRing.Speed = c.InnerRing.Speed.tmod 6
      ∧ (standardizeCompass c).MiddleRing.Speed = c.MiddleRing.Speed.tmod 6
      ∧ (standardizeCompass c).OuterRing.Speed = c.OuterRing.Speed.tmod 6
      ∧ ((standardizeCompass c).InnerRing.Speed ≠ 0 →
          (0 < (standardizeCompass c).InnerRing.Speed ↔ 0 < c.InnerRing.Speed)
          ∧ ((standardizeCompass c).InnerRing.Speed < 0 ↔ c.InnerRing.Speed < 0))
      ∧ ((standardizeCompass c).MiddleRing.Speed ≠ 0 →
          (0 < (standardizeCompass c).MiddleRing.Speed ↔ 0 < c.MiddleRing.Speed)
          ∧ ((standardizeCompass c).MiddleRing.Speed < 0 ↔ c.MiddleRing.Speed < 0))
      ∧ ((standardizeCompass c).OuterRing.Speed ≠ 0 →
          (0 < (standardizeCompass c).OuterRing.Speed ↔ 0 < c.OuterRing.Speed)
          ∧ ((standardizeCompass c).OuterRing.Speed < 0 ↔ c.OuterRing.Speed < 0)))
    ∧ (standardizeCompass ⟨⟨0, -1⟩, ⟨0, 7⟩, ⟨0, -7⟩, []⟩).InnerRing.Speed = -1
    ∧ (standardizeCompass ⟨⟨0, -1⟩, ⟨0, 7⟩, ⟨0, -7⟩, []⟩).MiddleRing.Speed = 1
    ∧ (standardizeCompass ⟨⟨0, -1⟩, ⟨0, 7⟩, ⟨0, -7⟩, []⟩).OuterRing.Speed = -1 :=
  ⟨fun c =>
    ⟨rfl, rfl, rfl,
     fun h => tmod_six_sign c.InnerRing.Speed h,
     fun h => tmod_six_sign c.MiddleRing.Speed h,
     fun h => tmod_six_sign c.OuterRing.Speed h⟩,
   by decide, by decide, by decide⟩

/-- C4 witness: the theorem applied at a concrete compass, discharging the
non-zero-speed hypothesis there by evaluation. -/
theorem C4_speed_standardized_example :
    0 < (standardizeCompass ⟨⟨0, -1⟩, ⟨0, 7⟩, ⟨0, -7⟩, []⟩).MiddleRing.Speed :=
  (((C4_speed_standardized.1 ⟨⟨0, -1⟩, ⟨0, 7⟩, ⟨0, -7⟩, []⟩).2.2.2.2.1)
    (by decide)).1.mpr (by decide)

/-- C5: for every compass, the standardized `RingGroups` list is strictly
ascending in the bitmask's numeric value and duplicate-free; in particular
`[InnerRingGroup, OuterRingGroup, InnerRingGroup]` standardizes to
`[InnerRingGroup, OuterRingGroup]`. -/
theorem C5_ringGroups_sorted_nodup :
    (∀ c : Compass,
      List.Sorted (· < ·) (standardizeCompass c).RingGroups
      ∧ (standardizeCompass c).RingGroups.Nodup)
    ∧ (standardizeCompass ⟨⟨0, 0⟩, ⟨0, 0⟩, ⟨0, 0⟩,
        [InnerRingGroup, OuterRingGroup, InnerRingGroup]⟩).RingGroups
      = [InnerRingGroup, OuterRingGroup] :=
  ⟨fun c =>
    have hs : List.Sorted (· < ·) (standardizeCompass c).RingGroups :=
      List.chain'_iff_pairwise.mp (chain_standardRGs c.RingGroups)
    ⟨hs, hs.imp ne_of_lt⟩,
   by decide⟩

/-- C6: on a nil receiver every operation degrades gracefully:
`IsRingGroupSupported` returns `false` for every ring group, `Standardize`
returns nil, and `String()` returns the empty string. -/
theorem C6_nil_receiver :
    (∀ rg : RingGroup, Compass.IsRingGroupSupported none rg = false)
    ∧ Compass.Standardize none = none
    ∧ CompassString none = "" :=
  ⟨fun _ => rfl, rfl, rfl⟩

/-- C7: for every non-nil compass and ring group, `IsRingGroupSupported`
returns `true` exactly when the ring group is an element of the compass's
`RingGroups` collection as given, without standardization. -/
theorem C7_isRingGroupSupported_iff (c : Compass) (rg : RingGroup) :
    Compass.IsRingGroupSupported (some c) rg = true ↔ rg ∈ c.RingGroups := by
  show containsRG c.RingGroups rg = true ↔ rg ∈ c.RingGroups
  rw [containsRG_eq_decide]
  exact decide_eq_true_iff

/-- C8: a ring-group bit pattern that is not one of the six defined constants
(including the empty set, the full set `0b111`, and values with higher bits)
gets `""` from both `Name` and `ShortName`, while the six defined constants
get their documented long names and short codes. -/
theorem C8_ringGroup_names :
    (∀ rg : RingGroup,
      rg ∉ [OuterRingGroup, MiddleRingGroup, InnerRingGroup,
            OuterMiddleRingGroup, OuterInnerRingGroup, MiddleInnerRingGroup] →
      RingGroup.Name rg = "" ∧ RingGroup.ShortName rg = "")
    ∧ RingGroup.Name OuterRingGroup = "Outer"
    ∧ RingGroup.Name MiddleRingGroup = "Middle"
    ∧ RingGroup.Name InnerRingGroup = "Inner"
    ∧ RingGroup.Name OuterMiddleRingGroup = "OuterMiddle"
    ∧ RingGroup.Name OuterInnerRingGroup = "OuterInner"
    ∧ RingGroup.Name MiddleInnerRingGroup = "MiddleInner"
    ∧ RingGroup.ShortName OuterRingGroup = "o"
    ∧ RingGroup.ShortName MiddleRingGroup = "m"
    ∧ RingGroup.ShortName InnerRingGroup = "i"
    ∧ RingGroup.ShortName OuterMiddleRingGroup = "om"
    ∧ RingGroup.ShortName OuterInnerRingGroup = "oi"
    ∧ RingGroup.ShortName MiddleInnerRingGroup = "mi" := by
  refine ⟨?_, by decide, by decide, by decide, by decide, by decide, by decide,
    by decide, by decide, by decide, by decide, by decide, by decide⟩
  intro rg h
  simp only [List.mem_cons, List.not_mem_nil, or_false, not_or] at h
  obtain ⟨h1, h2, h3, h4, h5, h6⟩ := h
  constructor
  · simp [RingGroup.Name, h1, h2, h3, h4, h5, h6]
  · simp [RingGroup.ShortName, h1, h2, h3, h4, h5, h6]

/-- C8 witness: the undefined pattern `0b111` (all three bits set) gets `""`
from both name functions, by the theorem applied there. -/
theorem C8_ringGroup_names_example :
    (7 : RingGroup) ∉ [OuterRingGroup, MiddleRingGroup, InnerRingGroup,
        OuterMiddleRingGroup, OuterInnerRingGroup, MiddleInnerRingGroup]
    ∧ RingGroup.Name 7 = "" ∧ RingGroup.ShortName 7 = "" :=
  ⟨by decide, (C8_ringGroup_names.1 7 (by decide)).1,
    (C8_ringGroup_names.1 7 (by decide)).2⟩

/-- C9: on the slice-heap model, `Standardize` leaves the receiver's
`RingGroups` backing array untouched (the sort operates on a fresh copy), and
the returned compass references a fresh slice holding the sorted, deduplicated
groups; the receiver's ring fields are only read, never assigned. -/
theorem C9_standardize_frame (h : RGHeap) (c : CompassRef)
    (hvalid : c.RingGroupsRef < h.next) :
    (standardizeHeap h c).2.data c.RingGroupsRef = h.data c.RingGroupsRef
    ∧ (standardizeHeap h c).2.data (standardizeHeap h c).1.RingGroupsRef
      = dedupRGs (sortRGs (h.data c.RingGroupsRef))
    ∧ (standardizeHeap h c).1.RingGroupsRef ≠ c.RingGroupsRef := by
  refine ⟨?_, ?_, ?_⟩ <;>
    simp only [standardizeHeap, RGHeap.alloc, RGHeap.write]
  · split_ifs <;> first | rfl | omega
  · split_ifs <;> first | rfl | omega
  · omega

/-- C9 witness: the frame theorem evaluated on a concrete heap and receiver. -/
theorem C9_standardize_frame_example :
    (0 : Nat) < 1
    ∧ ((standardizeHeap ⟨fun _ => [OuterRingGroup, InnerRingGroup, OuterRingGroup], 1⟩
          ⟨⟨0, 0⟩, ⟨0, 0⟩, ⟨0, 0⟩, 0⟩).2.data 0
        = (⟨fun _ => [OuterRingGroup, InnerRingGroup, OuterRingGroup], 1⟩ : RGHeap).data 0
      ∧ (standardizeHeap ⟨fun _ => [OuterRingGroup, InnerRingGroup, OuterRingGroup], 1⟩
          ⟨⟨0, 0⟩, ⟨0, 0⟩, ⟨0, 0⟩, 0⟩).2.data
          (standardizeHeap ⟨fun _ => [OuterRingGroup, InnerRingGroup, OuterRingGroup], 1⟩
            ⟨⟨0, 0⟩, ⟨0, 0⟩, ⟨0, 0⟩, 0⟩).1.RingGroupsRef
        = dedupRGs (sortRGs ((⟨fun _ => [OuterRingGroup, InnerRingGroup, OuterRingGroup], 1⟩
            : RGHeap).data 0))
      ∧ (standardizeHeap ⟨fun _ => [OuterRingGroup, InnerRingGroup, OuterRingGroup], 1⟩
          ⟨⟨0, 0⟩, ⟨0, 0⟩, ⟨0, 0⟩, 0⟩).1.RingGroupsRef ≠ 0) :=
  ⟨by decide,
   C9_standardize_frame ⟨fun _ => [OuterRingGroup, InnerRingGroup, OuterRingGroup], 1⟩
     ⟨⟨0, 0⟩, ⟨0, 0⟩, ⟨0, 0⟩, 0⟩ (by decide)⟩

/-- C10: standardizing preserves group membership: a ring group is supported
by the standardized compass exactly when it is supported by the original. -/
theorem C10_standardize_preserves_support (c : Compass) (rg : RingGroup) :
    Compass.IsRingGroupSupported (Compass.Standardize (some c)) rg
      = Compass.IsRingGroupSupported (some c) rg := by
  show containsRG (dedupRGs (sortRGs c.RingGroups)) rg = containsRG c.RingGroups rg
  rw [containsRG_eq_decide, containsRG_eq_decide]
  exact decide_eq_decide.mpr (mem_dedupRGs.trans mem_sortRGs)

end HksrCompass
